import Mathlib

/-!
Verification of the TLV (Type-Length-Value) codec implemented in
`src/core/common/tlvs.cpp` (`ot::Tlv`).  The message buffer collaborator
(`ot::Message`) is not part of the source tree; it is modelled from the
specification's collaborator interface (`read_offset()`, `length()`,
`read_at(offset, out, count)` which fails when `offset + count > length`,
and `append_bytes(data, count)` which grows the buffer and may fail on
allocation).  Machine integers are modelled as `Nat`, with explicit
`% 2 ^ w` reductions at the points where the C code performs fixed-width
arithmetic that is not already guarded by a bounds check.
-/

namespace ot

/-- Error codes: `kErrorNone`, `kErrorNotFound`, `kErrorParse` are the results
produced by the TLV code itself; `kErrorRange` is the read failure of the
external buffer (spec: "`Range`/read-failure, propagated unchanged from the
underlying buffer"), and `kErrorNoBufs` is the allocation failure of the
buffer's append primitive (spec section 4.4). -/
inductive Error where
  | kErrorNone
  | kErrorNotFound
  | kErrorParse
  | kErrorRange
  | kErrorNoBufs
deriving DecidableEq, Repr

instance {ε α : Type} [DecidableEq ε] [DecidableEq α] : DecidableEq (Except ε α) := fun a b =>
  match a, b with
  | .error e, .error f =>
    if h : e = f then isTrue (by rw [h]) else isFalse (fun q => h (Except.error.inj q))
  | .error _, .ok _ => isFalse (fun q => Except.noConfusion q)
  | .ok _, .error _ => isFalse (fun q => Except.noConfusion q)
  | .ok x, .ok y =>
    if h : x = y then isTrue (by rw [h]) else isFalse (fun q => h (Except.ok.inj q))

/-- Modelled from the spec: the external message buffer collaborator.
`data` is the byte store (only indices below `len` are valid message
content), `len` is `GetLength()`, `offset` is `GetOffset()` (the current
read offset), and `cap` bounds how far the buffer may grow on append
(spec section 4.4 allows `append_bytes` to fail, e.g. on allocation). -/
structure Message where
  data : Nat → Nat
  len : Nat
  offset : Nat
  cap : Nat

/-- Modelled from the spec: `read_at(offset, out, count)` — bounds-checked
read of `count` bytes, failing when `offset + count > length`.  This models
`Message::Read` as used for the `Tlv` / `ExtendedTlv` header reads. -/
def Message.readAt (m : Message) (aOffset aCount : Nat) : Option (List Nat) :=
  if aOffset + aCount ≤ m.len then
    some ((List.range aCount).map (fun i => m.data (aOffset + i)))
  else
    none

/-- Modelled from the spec: the non-failing byte copy `Message::ReadBytes`,
which copies the bytes that are available within bounds (every use in the
TLV code is behind a validation that makes the whole range available). -/
def Message.readBytes (m : Message) (aOffset aLength : Nat) : List Nat :=
  (List.range (min aLength (m.len - aOffset))).map (fun i => m.data (aOffset + i))

/-- Modelled from the spec: `append_bytes(data, count)` grows the buffer at
its end; it fails (allocation failure, spec section 4.4) when the grown
length would exceed the buffer's capacity. -/
def Message.appendBytes (m : Message) (bs : List Nat) : Except Error Message :=
  if m.len + bs.length ≤ m.cap then
    .ok { m with
          data := fun i => if i < m.len then m.data i else bs.getD (i - m.len) 0,
          len := m.len + bs.length }
  else
    .error .kErrorNoBufs

/-- Sentinel length byte signalling the extended (4-byte) header form. -/
def kExtendedLength : Nat := 255

/-- Maximum value length of the short header form (`0xFE`). -/
def kBaseTlvMaxLength : Nat := 254

namespace Tlv

/-- Size computation of one scan-loop iteration (`tlvs.cpp` lines 134-146):
a non-sentinel length byte gives `sizeof(Tlv) + length`; the sentinel makes
the loop re-read an `ExtendedTlv` (4 bytes) and verify
`extTlv.GetLength() <= remainingLen - sizeof(ExtendedTlv)` — that
subtraction is C `size_t` arithmetic, hence the explicit `% 2 ^ 64`.
`none` models the loop exiting with its current error (`kErrorNotFound`). -/
def headerSize (m : Message) (offset remainingLen mLength : Nat) : Option Nat :=
  if mLength ≠ kExtendedLength then
    some (2 + mLength)
  else
    match m.readAt offset 4 with
    | none => none
    | some ext =>
      let extLen := ext.getD 2 0 * 256 + ext.getD 3 0
      if extLen ≤ (remainingLen + (2 ^ 64 - 4)) % 2 ^ 64 then
        some (4 + extLen)
      else
        none

/-- The scan loop of `Tlv::Find` (`tlvs.cpp` lines 130-173), with an explicit
fuel argument standing for the `while (true)` loop (the fuel used by `Find`
below is proved sufficient: each non-terminal iteration consumes at least
two bytes of `remainingLen`).  State per iteration: `offset` (a `uint16_t`,
hence the `% 2 ^ 16` update) and `remainingLen`.  On success the `uint32_t`
size is narrowed to the 16-bit output parameter (`% 2 ^ 16`). -/
def findLoopFuel (m : Message) (aType : Nat) :
    Nat → Nat → Nat → Option (Except Error (Nat × Nat × Bool))
  | 0, _, _ => none
  | fuel + 1, offset, remainingLen =>
    match m.readAt offset 2 with
    | none => some (.error .kErrorNotFound)
    | some hdr =>
      match headerSize m offset remainingLen (hdr.getD 1 0) with
      | none => some (.error .kErrorNotFound)
      | some size =>
        if size ≤ remainingLen then
          if hdr.getD 0 0 = aType then
            some (.ok (offset, size % 2 ^ 16, hdr.getD 1 0 == kExtendedLength))
          else
            findLoopFuel m aType fuel ((offset + size) % 2 ^ 16) (remainingLen - size)
        else
          some (.error .kErrorNotFound)

/-- `Tlv::Find` (`tlvs.cpp` lines 110-177): scan `aMessage` from its read
offset for the first TLV of type `aType`; outputs the TLV offset, size and
whether it is an extended TLV.  Returns `kErrorNone` when found, otherwise
`kErrorNotFound` (every exit path of the C function leaves `error` at its
initial `kErrorNotFound`).  The fuel `remainingLen + 1` is proved ample. -/
def Find (m : Message) (aType : Nat) : Except Error (Nat × Nat × Bool) :=
  if m.offset ≤ m.len then
    (findLoopFuel m aType (m.len - m.offset + 1) m.offset (m.len - m.offset)).getD
      (.error .kErrorNotFound)
  else
    .error .kErrorNotFound

/-- `Tlv::FindTlvOffset`: `Find` keeping only the offset output. -/
def FindTlvOffset (m : Message) (aType : Nat) : Except Error Nat :=
  match Find m aType with
  | .error e => .error e
  | .ok (offset, _, _) => .ok offset

/-- `Tlv::ReadTlv` (`tlvs.cpp` lines 212-240): decode the header at
`aOffset`, producing the value length and value offset; `kErrorParse` when
the declared record overruns the message length. -/
def ReadTlv (m : Message) (aOffset : Nat) : Except Error (Nat × Nat) :=
  match m.readAt aOffset 2 with
  | none => .error .kErrorRange
  | some hdr =>
    if hdr.getD 1 0 ≠ kExtendedLength then
      let aLength := hdr.getD 1 0
      let aValueOffset := aOffset + 2
      if aOffset + (2 + aLength) ≤ m.len then
        .ok (aLength, aValueOffset)
      else
        .error .kErrorParse
    else
      match m.readAt aOffset 4 with
      | none => .error .kErrorRange
      | some ext =>
        let aLength := ext.getD 2 0 * 256 + ext.getD 3 0
        let aValueOffset := aOffset + 4
        if aOffset + (4 + aLength) ≤ m.len then
          .ok (aLength, aValueOffset)
        else
          .error .kErrorParse

/-- `Tlv::ReadTlvValue` (`tlvs.cpp` lines 242-256): decode the header at
`aOffset` and copy exactly `aMinLength` value bytes; `kErrorParse` when the
value is shorter than `aMinLength`. -/
def ReadTlvValue (m : Message) (aOffset aMinLength : Nat) : Except Error (List Nat) :=
  match ReadTlv m aOffset with
  | .error e => .error e
  | .ok (length, valueOffset) =>
    if aMinLength ≤ length then
      .ok (m.readBytes valueOffset aMinLength)
    else
      .error .kErrorParse

/-- Big-endian interpretation of a byte list (the `HostSwap` of the raw
bytes copied by `ReadTlvValue`; big-endian conversion is an external
primitive per the spec). -/
def beToNat (bs : List Nat) : Nat :=
  bs.foldl (fun a b => a * 256 + b) 0

/-- Big-endian byte encoding of `v` in `w` bytes (the `HostSwap` performed
by `AppendUintTlv` before appending the raw bytes). -/
def natToBe (w v : Nat) : List Nat :=
  (List.range w).reverse.map (fun i => v / 256 ^ i % 256)

/-- `Tlv::ReadUintTlv` (`tlvs.cpp` lines 196-205): `ReadTlvValue` with
`aMinLength = sizeof(UintType) = w`, then big-endian to host conversion. -/
def ReadUintTlv (m : Message) (aOffset w : Nat) : Except Error Nat :=
  match ReadTlvValue m aOffset w with
  | .error e => .error e
  | .ok bs => .ok (beToNat bs)

/-- `Tlv::ReadStringTlv` (`tlvs.cpp` lines 179-194).  The caller's output
storage is `aValue : Nat → Nat`.  On success the copy length is
`Min(length, aMaxStringLength)`, that many value bytes are copied to
indices `0 .. length-1`, and the terminating null byte is written at index
`length + 1` (the source's `aValue[length + 1] = kNullChar`).  On error the
output storage is returned untouched. -/
def ReadStringTlv (m : Message) (aOffset aMaxStringLength : Nat) (aValue : Nat → Nat) :
    Error × (Nat → Nat) :=
  match ReadTlv m aOffset with
  | .error e => (e, aValue)
  | .ok (length0, valueOffset) =>
    let length := min length0 aMaxStringLength
    let copied := m.readBytes valueOffset length
    let afterCopy : Nat → Nat := fun i => if i < copied.length then copied.getD i 0 else aValue i
    (Error.kErrorNone, fun i => if i = length + 1 then 0 else afterCopy i)

/-- `Tlv::FindUintTlv` (`tlvs.cpp` lines 270-280): `FindTlvOffset` then
`ReadUintTlv` at the found offset. -/
def FindUintTlv (m : Message) (aType w : Nat) : Except Error Nat :=
  match FindTlvOffset m aType with
  | .error e => .error e
  | .ok offset => ReadUintTlv m offset w

/-- `Tlv::AppendTlv` (`tlvs.cpp` lines 320-336): `OT_ASSERT(aLength <=
kBaseTlvMaxLength)` is modelled as the `none` result (assertion failure);
otherwise a 2-byte short header `[aType, aValue.length]` is appended, then
(when the value is non-empty) the value bytes.  The pair result carries the
error together with the message state actually reached (the header append
commits even if the value append then fails, as the spec's section 4.4
documents). -/
def AppendTlv (m : Message) (aType : Nat) (aValue : List Nat) : Option (Error × Message) :=
  if aValue.length ≤ kBaseTlvMaxLength then
    some (match m.appendBytes [aType, aValue.length] with
      | .error e => (e, m)
      | .ok m1 =>
        if 0 < aValue.length then
          match m1.appendBytes aValue with
          | .error e => (e, m1)
          | .ok m2 => (Error.kErrorNone, m2)
        else
          (Error.kErrorNone, m1))
  else
    none

/-- `Tlv::AppendUintTlv` (`tlvs.cpp` lines 308-313): big-endian conversion
of `aValue` into `sizeof(UintType) = w` bytes, then `AppendTlv`. -/
def AppendUintTlv (m : Message) (aType w aValue : Nat) : Option (Error × Message) :=
  AppendTlv m aType (natToBe w aValue)

/-- An empty message buffer with capacity `c`. -/
def emptyMsg (c : Nat) : Message :=
  { data := fun _ => 0, len := 0, offset := 0, cap := c }

/-- Declarative well-formedness of one record at offset `o` with type `t`
and total size `s` (the layout the spec's data-model invariant describes):
the header bytes are within the message, `s` is derived from the header
per the short/extended form, and `o + s ≤ len`. -/
def wellFormedRecord (m : Message) (o t s : Nat) : Prop :=
  o + 2 ≤ m.len ∧ m.data o = t ∧
    ((m.data (o + 1) ≠ kExtendedLength ∧ s = 2 + m.data (o + 1)) ∨
      (m.data (o + 1) = kExtendedLength ∧ o + 4 ≤ m.len ∧
        s = 4 + (m.data (o + 2) * 256 + m.data (o + 3)))) ∧
  o + s ≤ m.len

/-- A chain of well-formed records at consecutive offsets starting at `o`;
each list entry is a `(type, size)` pair. -/
def recordChain (m : Message) : Nat → List (Nat × Nat) → Prop
  | _, [] => True
  | o, (t, s) :: rest => wellFormedRecord m o t s ∧ recordChain m (o + s) rest

/-- Total size of a list of `(type, size)` records. -/
def sumSizes (rs : List (Nat × Nat)) : Nat :=
  (rs.map (fun p => p.2)).sum

/-- The size computation of one scan iteration with exact (unbounded)
arithmetic: the extended-length check is `extLen ≤ remainingLen - 4` with
true subtraction instead of the wrapping `size_t` subtraction.  Comparing
`findLoopFuel` against the loop built on this version proves that the C
fixed-width arithmetic never actually wraps. -/
def headerSizeClean (m : Message) (offset remainingLen mLength : Nat) : Option Nat :=
  if mLength ≠ kExtendedLength then
    some (2 + mLength)
  else
    match m.readAt offset 4 with
    | none => none
    | some ext =>
      let extLen := ext.getD 2 0 * 256 + ext.getD 3 0
      if extLen ≤ remainingLen - 4 then
        some (4 + extLen)
      else
        none

/-- The scan loop with exact arithmetic: no `% 2 ^ 16` on the offset update
or on the size output, and the exact extended-length check. -/
def findLoopClean (m : Message) (aType : Nat) :
    Nat → Nat → Nat → Option (Except Error (Nat × Nat × Bool))
  | 0, _, _ => none
  | fuel + 1, offset, remainingLen =>
    match m.readAt offset 2 with
    | none => some (.error .kErrorNotFound)
    | some hdr =>
      match headerSizeClean m offset remainingLen (hdr.getD 1 0) with
      | none => some (.error .kErrorNotFound)
      | some size =>
        if size ≤ remainingLen then
          if hdr.getD 0 0 = aType then
            some (.ok (offset, size, hdr.getD 1 0 == kExtendedLength))
          else
            findLoopClean m aType fuel (offset + size) (remainingLen - size)
        else
          some (.error .kErrorNotFound)

end Tlv

/-- Example buffer holding one truncated record: header `[5, 3]` declares a
3-byte value but only one value byte (`1`) remains. -/
def mTrunc : Message := ⟨fun i => [5, 3, 1].getD i 0, 3, 0, 3⟩

/-- Example buffer holding one record `{type 5, value "abc"}`. -/
def mStr : Message := ⟨fun i => [5, 3, 97, 98, 99].getD i 0, 5, 0, 5⟩

/-- Example buffer whose read offset (5) exceeds its length (3). -/
def mOff : Message := ⟨fun i => [1, 2, 3].getD i 0, 3, 5, 3⟩

/-- Example empty buffer whose capacity (2) only has room for a TLV header. -/
def mTiny : Message := ⟨fun _ => 0, 0, 0, 2⟩

/-- The state `mTiny` reaches when `AppendTlv` commits the header `[5, 1]`
and the value append then fails. -/
def mTinyHdr : Message :=
  ⟨fun i => if i < mTiny.len then mTiny.data i else [5, 1].getD (i - mTiny.len) 0,
    mTiny.len + 2, mTiny.offset, mTiny.cap⟩

/-- Example buffer from the spec's concrete scenario: record
`{type 5, value [1, 2, 3, 4]}` followed by `{type 7, value []}`. -/
def mScen : Message := ⟨fun i => [5, 4, 1, 2, 3, 4, 7, 0].getD i 0, 8, 0, 8⟩

/-- Example buffer holding `{type 5, value [1, 2]}` (a 2-byte value, used
against 4-byte reads). -/
def mShort : Message := ⟨fun i => [5, 2, 1, 2].getD i 0, 4, 0, 4⟩

/-- Example buffer with duplicate type codes: records `{type 3, value [9]}`,
`{type 5, value [1]}`, `{type 5, value [7, 7]}`. -/
def mDup : Message := ⟨fun i => [3, 1, 9, 5, 1, 1, 5, 2, 7, 7].getD i 0, 10, 0, 10⟩

namespace Tlv

theorem headerSize_two_le {m : Message} {o r l s : Nat}
    (h : headerSize m o r l = some s) : 2 ≤ s := by
  unfold headerSize at h
  split at h
  · have := Option.some.inj h
    omega
  · cases hr : m.readAt o 4 with
    | none => rw [hr] at h; exact absurd h (by simp)
    | some ext =>
      rw [hr] at h
      simp only at h
      split at h
      · have := Option.some.inj h
        omega
      · exact absurd h (by simp)

theorem headerSizeClean_two_le {m : Message} {o r l s : Nat}
    (h : headerSizeClean m o r l = some s) : 2 ≤ s := by
  unfold headerSizeClean at h
  split at h
  · have := Option.some.inj h
    omega
  · cases hr : m.readAt o 4 with
    | none => rw [hr] at h; exact absurd h (by simp)
    | some ext =>
      rw [hr] at h
      simp only at h
      split at h
      · have := Option.some.inj h
        omega
      · exact absurd h (by simp)

theorem findLoopFuel_congr (m : Message) (aType : Nat) :
    ∀ f g o r, r < 2 * f → r < 2 * g →
      findLoopFuel m aType f o r = findLoopFuel m aType g o r := by
  intro f
  induction f with
  | zero => intro g o r hf _; omega
  | succ f ih =>
    intro g o r hf hg
    cases g with
    | zero => omega
    | succ g =>
      simp only [findLoopFuel]
      cases hro : m.readAt o 2 with
      | none => rfl
      | some hdr =>
        simp only
        cases hh : headerSize m o r (hdr.getD 1 0) with
        | none => rfl
        | some size =>
          simp only
          by_cases hsz : size ≤ r
          · rw [if_pos hsz, if_pos hsz]
            by_cases ht : hdr.getD 0 0 = aType
            · rw [if_pos ht, if_pos ht]
            · rw [if_neg ht, if_neg ht]
              have h2 := headerSize_two_le hh
              exact ih g ((o + size) % 2 ^ 16) (r - size) (by omega) (by omega)
          · rw [if_neg hsz, if_neg hsz]

theorem findLoopFuel_isSome (m : Message) (aType : Nat) :
    ∀ f o r, r < 2 * f → (findLoopFuel m aType f o r).isSome := by
  intro f
  induction f with
  | zero => intro o r hf; omega
  | succ f ih =>
    intro o r hf
    simp only [findLoopFuel]
    cases hro : m.readAt o 2 with
    | none => rfl
    | some hdr =>
      simp only
      cases hh : headerSize m o r (hdr.getD 1 0) with
      | none => rfl
      | some size =>
        simp only
        by_cases hsz : size ≤ r
        · rw [if_pos hsz]
          by_cases ht : hdr.getD 0 0 = aType
          · rw [if_pos ht]; rfl
          · rw [if_neg ht]
            have h2 := headerSize_two_le hh
            exact ih ((o + size) % 2 ^ 16) (r - size) (by omega)
        · rw [if_neg hsz]; rfl

theorem readAt_two {m : Message} {o : Nat} (h : o + 2 ≤ m.len) :
    m.readAt o 2 = some [m.data o, m.data (o + 1)] := by
  have hr : List.range 2 = [0, 1] := rfl
  unfold Message.readAt
  rw [if_pos h, hr]
  simp

theorem readAt_four {m : Message} {o : Nat} (h : o + 4 ≤ m.len) :
    m.readAt o 4 = some [m.data o, m.data (o + 1), m.data (o + 2), m.data (o + 3)] := by
  have hr : List.range 4 = [0, 1, 2, 3] := rfl
  unfold Message.readAt
  rw [if_pos h, hr]
  simp

theorem wellFormedRecord_two_le {m : Message} {o t s : Nat}
    (hwf : wellFormedRecord m o t s) : 2 ≤ s := by
  obtain ⟨-, -, hform, -⟩ := hwf
  rcases hform with ⟨-, hs⟩ | ⟨-, -, hs⟩ <;> omega

theorem headerSize_of_wf {m : Message} {o t s : Nat}
    (hlen16 : m.len < 2 ^ 16) (hwf : wellFormedRecord m o t s) :
    headerSize m o (m.len - o) (m.data (o + 1)) = some s := by
  obtain ⟨h2, -, hform, hsize⟩ := hwf
  unfold headerSize
  rcases hform with ⟨hne, hs⟩ | ⟨heq, h4, hs⟩
  · rw [if_pos hne, hs]
  · rw [if_neg (by simp [heq]), readAt_four h4]
    simp only [List.getD_cons_succ, List.getD_cons_zero]
    rw [if_pos (by omega), hs]

theorem findLoop_found {m : Message} {o s aType : Nat} (fuel : Nat)
    (hlen16 : m.len < 2 ^ 16) (hwf : wellFormedRecord m o aType s) :
    findLoopFuel m aType (fuel + 1) o (m.len - o) =
      some (.ok (o, s, m.data (o + 1) == kExtendedLength)) := by
  have h2 : o + 2 ≤ m.len := hwf.1
  have htype : m.data o = aType := hwf.2.1
  have hsize : o + s ≤ m.len := hwf.2.2.2
  simp only [findLoopFuel]
  rw [readAt_two h2]
  simp only [List.getD_cons_succ, List.getD_cons_zero]
  rw [headerSize_of_wf hlen16 hwf]
  simp only
  rw [if_pos (by omega), if_pos htype,
    Nat.mod_eq_of_lt (by omega : s < 2 ^ 16)]

theorem findLoop_step {m : Message} {o t s aType : Nat} (fuel : Nat)
    (hlen16 : m.len < 2 ^ 16) (hwf : wellFormedRecord m o t s) (hne : t ≠ aType) :
    findLoopFuel m aType (fuel + 1) o (m.len - o) =
      findLoopFuel m aType fuel (o + s) (m.len - (o + s)) := by
  have h2 : o + 2 ≤ m.len := hwf.1
  have htype : m.data o = t := hwf.2.1
  have hsize : o + s ≤ m.len := hwf.2.2.2
  simp only [findLoopFuel]
  rw [readAt_two h2]
  simp only [List.getD_cons_succ, List.getD_cons_zero]
  rw [headerSize_of_wf hlen16 hwf]
  simp only
  rw [if_pos (by omega), if_neg (htype ▸ hne),
    Nat.mod_eq_of_lt (by omega : o + s < 2 ^ 16)]
  congr 1
  omega

theorem find_chain {m : Message} {aType s : Nat} {post : List (Nat × Nat)}
    (hlen16 : m.len < 2 ^ 16) :
    ∀ (pre : List (Nat × Nat)) (o : Nat), o ≤ m.len →
      recordChain m o (pre ++ (aType, s) :: post) →
      (∀ p ∈ pre, p.1 ≠ aType) →
      findLoopFuel m aType (m.len - o + 1) o (m.len - o) =
        some (.ok (o + sumSizes pre, s,
          m.data (o + sumSizes pre + 1) == kExtendedLength)) := by
  intro pre
  induction pre with
  | nil =>
    intro o _ hchain _
    have hwf : wellFormedRecord m o aType s := hchain.1
    rw [findLoop_found (m.len - o) hlen16 hwf]
    simp [sumSizes]
  | cons p pre ih =>
    intro o ho hchain hpre
    obtain ⟨t1, s1⟩ := p
    have hwf : wellFormedRecord m o t1 s1 := hchain.1
    have hchain2 : recordChain m (o + s1) (pre ++ (aType, s) :: post) := hchain.2
    have hne : t1 ≠ aType := hpre (t1, s1) (List.mem_cons_self _ _)
    have h2 : 2 ≤ s1 := wellFormedRecord_two_le hwf
    have hos : o + s1 ≤ m.len := hwf.2.2.2
    rw [findLoop_step (m.len - o) hlen16 hwf hne,
      findLoopFuel_congr m aType (m.len - o) (m.len - (o + s1) + 1) (o + s1)
        (m.len - (o + s1)) (by omega) (by omega),
      ih (o + s1) (by omega) hchain2 (fun q hq => hpre q (List.mem_cons_of_mem _ hq))]
    have harith : o + s1 + sumSizes pre = o + sumSizes ((t1, s1) :: pre) := by
      simp [sumSizes]
      omega
    rw [harith]

theorem range_map_eq_of_getD (v : List Nat) (f : Nat → Nat)
    (h : ∀ i, i < v.length → f i = v.getD i 0) :
    (List.range v.length).map f = v := by
  apply List.ext_getElem
  · simp
  · intro i h1 h2
    simp only [List.getElem_map, List.getElem_range]
    rw [h i h2, List.getD_eq_getElem v 0 h2]

/-- Reads against a buffer holding exactly one record `{type t, value v}`
(short form) starting at offset 0: `Find` locates it and `ReadTlvValue`
recovers the value bytes. -/
theorem single_record_reads (m1 : Message) (t : Nat) (v : List Nat)
    (hlen : m1.len = 2 + v.length) (hoff : m1.offset = 0)
    (hl : v.length ≤ kBaseTlvMaxLength)
    (h0 : m1.data 0 = t) (h1 : m1.data 1 = v.length)
    (hv : ∀ i, i < v.length → m1.data (2 + i) = v.getD i 0) :
    Find m1 t = .ok (0, 2 + v.length, false) ∧
      ReadTlvValue m1 0 v.length = .ok v := by
  have hl2 : v.length ≤ 254 := hl
  have hd1 : m1.data (0 + 1) = v.length := by rw [Nat.zero_add, h1]
  have hwf : wellFormedRecord m1 0 t (2 + v.length) := by
    refine ⟨by omega, h0, Or.inl ⟨?_, ?_⟩, by omega⟩
    · rw [hd1]
      show v.length ≠ 255
      omega
    · rw [hd1]
  constructor
  · unfold Find
    rw [hoff, if_pos (by omega)]
    rw [findLoop_found (m1.len - 0) (by omega) hwf]
    simp only [Option.getD_some, hd1]
    have hb : (v.length == kExtendedLength) = false := by
      cases hbt : v.length == kExtendedLength with
      | false => rfl
      | true =>
        have : v.length = kExtendedLength := eq_of_beq hbt
        simp only [kExtendedLength] at this
        omega
    rw [hb]
  · have hrt : ReadTlv m1 0 = .ok (v.length, 0 + 2) := by
      unfold ReadTlv
      rw [readAt_two (by omega)]
      simp only [List.getD_cons_succ, List.getD_cons_zero, hd1]
      rw [if_pos (by show v.length ≠ 255; omega), if_pos (by omega)]
    unfold ReadTlvValue
    rw [hrt]
    show (if v.length ≤ v.length then Except.ok (m1.readBytes (0 + 2) v.length)
        else Except.error Error.kErrorParse) = Except.ok v
    rw [if_pos (Nat.le_refl _)]
    unfold Message.readBytes
    have hsub : m1.len - (0 + 2) = v.length := by omega
    rw [hsub, Nat.min_self]
    have hv2 : ∀ i, i < v.length → m1.data (0 + 2 + i) = v.getD i 0 := by
      intro i hi
      rw [Nat.zero_add]
      exact hv i hi
    rw [range_map_eq_of_getD v (fun i => m1.data (0 + 2 + i)) hv2]

theorem appendBytes_ok (m : Message) (bs : List Nat) (h : m.len + bs.length ≤ m.cap) :
    m.appendBytes bs = .ok
      { data := fun i => if i < m.len then m.data i else bs.getD (i - m.len) 0,
        len := m.len + bs.length, offset := m.offset, cap := m.cap } := by
  unfold Message.appendBytes
  rw [if_pos h]

/-- Layout of the message produced by a successful `AppendTlv`. -/
theorem appendTlv_ok (m : Message) (t : Nat) (v : List Nat)
    (hl : v.length ≤ kBaseTlvMaxLength) (hcap : m.len + 2 + v.length ≤ m.cap) :
    ∃ m2, AppendTlv m t v = some (Error.kErrorNone, m2) ∧
      m2.len = m.len + 2 + v.length ∧ m2.offset = m.offset ∧ m2.cap = m.cap ∧
      (∀ i, i < m.len → m2.data i = m.data i) ∧
      m2.data m.len = t ∧ m2.data (m.len + 1) = v.length ∧
      (∀ i, i < v.length → m2.data (m.len + 2 + i) = v.getD i 0) := by
  have hb1 := appendBytes_ok m [t, v.length] (by simp; omega)
  unfold AppendTlv
  rw [if_pos hl, hb1]
  by_cases hv : 0 < v.length
  · have hb2 := appendBytes_ok
      { data := fun i => if i < m.len then m.data i else [t, v.length].getD (i - m.len) 0,
        len := m.len + [t, v.length].length, offset := m.offset, cap := m.cap }
      v (by simp; omega)
    simp only [List.length_cons, List.length_nil] at hb2 ⊢
    rw [if_pos hv, hb2]
    refine ⟨_, rfl,
      by show m.len + (0 + 1 + 1) + v.length = m.len + 2 + v.length; omega,
      rfl, rfl, ?_, ?_, ?_, ?_⟩
    · intro i hi
      show (if i < m.len + (0 + 1 + 1) then
          (if i < m.len then m.data i else [t, v.length].getD (i - m.len) 0)
        else v.getD (i - (m.len + (0 + 1 + 1))) 0) = m.data i
      rw [if_pos (by omega), if_pos hi]
    · show (if m.len < m.len + (0 + 1 + 1) then
          (if m.len < m.len then m.data m.len else [t, v.length].getD (m.len - m.len) 0)
        else v.getD (m.len - (m.len + (0 + 1 + 1))) 0) = t
      rw [if_pos (by omega), if_neg (by omega), Nat.sub_self]
      rfl
    · show (if m.len + 1 < m.len + (0 + 1 + 1) then
          (if m.len + 1 < m.len then m.data (m.len + 1)
            else [t, v.length].getD (m.len + 1 - m.len) 0)
        else v.getD (m.len + 1 - (m.len + (0 + 1 + 1))) 0) = v.length
      rw [if_pos (by omega), if_neg (by omega)]
      have : m.len + 1 - m.len = 1 := by omega
      rw [this]
      rfl
    · intro i hi
      show (if m.len + 2 + i < m.len + (0 + 1 + 1) then
          (if m.len + 2 + i < m.len then m.data (m.len + 2 + i)
            else [t, v.length].getD (m.len + 2 + i - m.len) 0)
        else v.getD (m.len + 2 + i - (m.len + (0 + 1 + 1))) 0) = v.getD i 0
      rw [if_neg (by omega)]
      have : m.len + 2 + i - (m.len + (0 + 1 + 1)) = i := by omega
      rw [this]
  · have hv0 : v.length = 0 := by omega
    simp only [List.length_cons, List.length_nil]
    rw [if_neg hv]
    refine ⟨_, rfl,
      by show m.len + (0 + 1 + 1) = m.len + 2 + v.length; omega,
      rfl, rfl, ?_, ?_, ?_, ?_⟩
    · intro i hi
      show (if i < m.len then m.data i else [t, v.length].getD (i - m.len) 0) = m.data i
      rw [if_pos hi]
    · show (if m.len < m.len then m.data m.len else [t, v.length].getD (m.len - m.len) 0) = t
      rw [if_neg (by omega), Nat.sub_self]
      rfl
    · show (if m.len + 1 < m.len then m.data (m.len + 1)
          else [t, v.length].getD (m.len + 1 - m.len) 0) = v.length
      rw [if_neg (by omega)]
      have : m.len + 1 - m.len = 1 := by omega
      rw [this]
      rfl
    · intro i hi
      omega

theorem natToBe_length (w v : Nat) : (natToBe w v).length = w := by
  simp [natToBe]

theorem beToNat_natToBe {w v : Nat} (hw : w = 1 ∨ w = 2 ∨ w = 4)
    (hv : v < 256 ^ w) : beToNat (natToBe w v) = v := by
  rcases hw with h | h | h <;> subst h <;>
    simp only [natToBe, beToNat, show (256 : Nat) ^ 1 = 256 from by norm_num,
      show (256 : Nat) ^ 2 = 65536 from by norm_num,
      show (256 : Nat) ^ 4 = 4294967296 from by norm_num] at hv ⊢ <;>
    norm_num [List.range_succ, List.foldl] <;> omega

/-- C1: Round-trip — for every type code and every value of length 0..254,
appending a record with `AppendTlv` (or `AppendUintTlv` with big-endian
conversion) to a buffer and then running `Find` for that type followed by
the matching typed read (`ReadTlvValue` / `ReadUintTlv`, the latter through
`FindUintTlv`) returns exactly the original value bytes, and for integers
the original numeric value. -/
theorem C1_round_trip (c : Nat) :
    (∀ t v, List.length v ≤ kBaseTlvMaxLength → 2 + List.length v ≤ c →
      ∃ m1, AppendTlv (emptyMsg c) t v = some (Error.kErrorNone, m1) ∧
        Find m1 t = .ok (0, 2 + List.length v, false) ∧
        ReadTlvValue m1 0 (List.length v) = .ok v) ∧
    (∀ t w val, (w = 1 ∨ w = 2 ∨ w = 4) → val < 256 ^ w → 2 + w ≤ c →
      ∃ m1, AppendUintTlv (emptyMsg c) t w val = some (Error.kErrorNone, m1) ∧
        FindUintTlv m1 t w = .ok val) := by
  have main : ∀ t v, List.length v ≤ kBaseTlvMaxLength → 2 + List.length v ≤ c →
      ∃ m1, AppendTlv (emptyMsg c) t v = some (Error.kErrorNone, m1) ∧
        Find m1 t = .ok (0, 2 + List.length v, false) ∧
        ReadTlvValue m1 0 (List.length v) = .ok v := by
    intro t v hl hc
    obtain ⟨m1, happ, hlen, hoff, -, -, h0, h1, hv⟩ :=
      appendTlv_ok (emptyMsg c) t v hl (by show 0 + 2 + v.length ≤ c; omega)
    refine ⟨m1, happ, ?_⟩
    have hlen2 : m1.len = 2 + v.length := by
      rw [hlen]
      show 0 + 2 + v.length = 2 + v.length
      omega
    have hoff2 : m1.offset = 0 := hoff
    have h02 : m1.data 0 = t := h0
    have h12 : m1.data 1 = v.length := h1
    have hv2 : ∀ i, i < v.length → m1.data (2 + i) = v.getD i 0 := by
      intro i hi
      have hx := hv i hi
      show m1.data (2 + i) = v.getD i 0
      rw [show (2 : Nat) + i = 0 + 2 + i from by omega]
      exact hx
    exact single_record_reads m1 t v hlen2 hoff2 hl h02 h12 hv2
  refine ⟨main, ?_⟩
  intro t w val hw hval hc2
  obtain ⟨m1, happ, hfind, hread⟩ := main t (natToBe w val)
    (by rw [natToBe_length]; show w ≤ 254; rcases hw with h | h | h <;> omega)
    (by rw [natToBe_length]; omega)
  refine ⟨m1, happ, ?_⟩
  rw [natToBe_length] at hread
  unfold FindUintTlv FindTlvOffset
  rw [hfind]
  show ReadUintTlv m1 0 w = .ok val
  unfold ReadUintTlv
  rw [hread]
  show Except.ok (beToNat (natToBe w val)) = Except.ok val
  rw [beToNat_natToBe hw hval]

/-- Witness for C1 at `type = 5`, `value = [1, 2, 3]` and at the 32-bit
value `0x01020304`. -/
theorem C1_round_trip_witness :
    (∃ m1, AppendTlv (emptyMsg 10) 5 [1, 2, 3] = some (Error.kErrorNone, m1) ∧
      Find m1 5 = .ok (0, 2 + List.length [1, 2, 3], false) ∧
      ReadTlvValue m1 0 (List.length [1, 2, 3]) = .ok [1, 2, 3]) ∧
    (∃ m1, AppendUintTlv (emptyMsg 10) 5 4 16909060 = some (Error.kErrorNone, m1) ∧
      FindUintTlv m1 5 4 = .ok 16909060) :=
  ⟨(C1_round_trip 10).1 5 [1, 2, 3] (by decide) (by decide),
   (C1_round_trip 10).2 5 4 16909060 (Or.inr (Or.inr rfl)) (by norm_num) (by decide)⟩

/-- Truncation behaviour at the record under the read offset: the scan
reaches the record whose declared value length overruns the buffer and
stops (`kErrorNotFound`, the loop's standing error), and the direct decode
is a `kErrorParse`. -/
theorem truncated_aux (m : Message) (t : Nat)
    (hlen16 : m.len < 2 ^ 16) (h2 : m.offset + 2 ≤ m.len)
    (hcut : if m.data (m.offset + 1) = kExtendedLength
      then m.offset + 4 ≤ m.len ∧
        m.len < m.offset + 4 + (m.data (m.offset + 2) * 256 + m.data (m.offset + 3))
      else m.len < m.offset + 2 + m.data (m.offset + 1)) :
    Find m t = .error .kErrorNotFound ∧ ReadTlv m m.offset = .error .kErrorParse := by
  by_cases hext : m.data (m.offset + 1) = kExtendedLength
  · rw [if_pos hext] at hcut
    obtain ⟨h4, hbig⟩ := hcut
    have hmod : (m.len - m.offset + (2 ^ 64 - 4)) % 2 ^ 64 = m.len - m.offset - 4 := by
      omega
    constructor
    · unfold Find
      rw [if_pos (by omega)]
      have hfuel : m.len - m.offset + 1 = (m.len - m.offset) + 1 := rfl
      rw [hfuel]
      simp only [findLoopFuel]
      rw [readAt_two h2]
      simp only [List.getD_cons_succ, List.getD_cons_zero]
      unfold headerSize
      rw [if_neg (by simp [hext]), readAt_four h4]
      simp only [List.getD_cons_succ, List.getD_cons_zero]
      rw [hmod, if_neg (by omega)]
      rfl
    · unfold ReadTlv
      rw [readAt_two h2]
      simp only [List.getD_cons_succ, List.getD_cons_zero]
      rw [if_neg (by simp [hext]), readAt_four h4]
      simp only [List.getD_cons_succ, List.getD_cons_zero]
      rw [if_neg (by omega)]
  · rw [if_neg hext] at hcut
    constructor
    · unfold Find
      rw [if_pos (by omega)]
      simp only [findLoopFuel]
      rw [readAt_two h2]
      simp only [List.getD_cons_succ, List.getD_cons_zero]
      unfold headerSize
      rw [if_pos hext]
      simp only
      rw [if_neg (by omega)]
      rfl
    · unfold ReadTlv
      rw [readAt_two h2]
      simp only [List.getD_cons_succ, List.getD_cons_zero]
      rw [if_pos hext, if_neg (by omega)]

/-- C2: Truncation safety — on a buffer whose trailing bytes are cut
mid-record (the header at the read offset declares more value bytes than
remain after it), `Find` (for any searched type) and `ReadTlv` at that
offset both fail (`kErrorNotFound` for the scan, `kErrorParse` for the
direct decode), and neither result depends on any byte at an index at or
beyond `len` (the final conjunct: any byte store agreeing below `len`
produces the same results). -/
theorem C2_truncation_safety (m : Message) (t : Nat)
    (hlen16 : m.len < 2 ^ 16) (h2 : m.offset + 2 ≤ m.len)
    (hcut : if m.data (m.offset + 1) = kExtendedLength
      then m.offset + 4 ≤ m.len ∧
        m.len < m.offset + 4 + (m.data (m.offset + 2) * 256 + m.data (m.offset + 3))
      else m.len < m.offset + 2 + m.data (m.offset + 1)) :
    Find m t = .error .kErrorNotFound ∧
    ReadTlv m m.offset = .error .kErrorParse ∧
    (∀ g : Nat → Nat, (∀ i, i < m.len → g i = m.data i) →
      Find { m with data := g } t = .error .kErrorNotFound ∧
      ReadTlv { m with data := g } m.offset = .error .kErrorParse) := by
  obtain ⟨hf, hr⟩ := truncated_aux m t hlen16 h2 hcut
  refine ⟨hf, hr, ?_⟩
  intro g hg
  have e1 : g (m.offset + 1) = m.data (m.offset + 1) := hg _ (by omega)
  apply truncated_aux { m with data := g } t hlen16 h2
  show (if g (m.offset + 1) = kExtendedLength
    then m.offset + 4 ≤ m.len ∧
      m.len < m.offset + 4 + (g (m.offset + 2) * 256 + g (m.offset + 3))
    else m.len < m.offset + 2 + g (m.offset + 1))
  by_cases hext : m.data (m.offset + 1) = kExtendedLength
  · rw [if_pos hext] at hcut
    obtain ⟨h4, hbig⟩ := hcut
    rw [if_pos (by rw [e1]; exact hext)]
    have e2 : g (m.offset + 2) = m.data (m.offset + 2) := hg _ (by omega)
    have e3 : g (m.offset + 3) = m.data (m.offset + 3) := hg _ (by omega)
    rw [e2, e3]
    exact ⟨h4, hbig⟩
  · rw [if_neg hext] at hcut
    rw [if_neg (by rw [e1]; exact hext), e1]
    exact hcut

/-- Witness for C2 on the truncated buffer `[5, 3, 1]` (declared value
length 3, one value byte remaining). -/
theorem C2_truncation_safety_witness :
    Find mTrunc 9 = .error .kErrorNotFound ∧
    ReadTlv mTrunc 0 = .error .kErrorParse := by
  have h := C2_truncation_safety mTrunc 9 (by decide) (by decide) (by decide)
  exact ⟨h.1, h.2.1⟩

/-- C3: evaluation of `ReadStringTlv` at the failing input — buffer
`[5, 3, 97, 98, 99]` (record `{type 5, value "abc"}`), `aMaxStringLength =
10`, caller storage previously filled with the byte 7.  The copy length is
`min(3, 10) = 3` and the three value bytes are copied to indices 0..2, but
the terminating null is written at index 4 (= copied length + 1, the
source's `aValue[length + 1]`), leaving index 3 — where the claim places
the terminator, immediately after the copied bytes — untouched at 7. -/
theorem C3_terminator_eval :
    (ReadStringTlv mStr 0 10 (fun _ => 7)).1 = Error.kErrorNone ∧
    (ReadStringTlv mStr 0 10 (fun _ => 7)).2 0 = 97 ∧
    (ReadStringTlv mStr 0 10 (fun _ => 7)).2 1 = 98 ∧
    (ReadStringTlv mStr 0 10 (fun _ => 7)).2 2 = 99 ∧
    (ReadStringTlv mStr 0 10 (fun _ => 7)).2 3 = 7 ∧
    (ReadStringTlv mStr 0 10 (fun _ => 7)).2 4 = 0 :=
  ⟨by decide, by decide, by decide, by decide, by decide, by decide⟩

/-- C4 counterexample: on a buffer whose read offset (5) exceeds its length
(3), `Find` fails immediately — but with `kErrorNotFound`, not with the
range/read error that the claim requires to be distinct from `NotFound`. -/
theorem C4_range_counterexample :
    Find mOff 1 = .error .kErrorNotFound ∧ Find mOff 1 ≠ .error .kErrorRange :=
  ⟨by decide, by decide⟩

/-- C4 amended: for every buffer whose current read offset exceeds its
length, `Find` fails immediately — without reading any header (the result
is fixed for every byte store and searched type) — with `kErrorNotFound`
(the entry `VerifyOrExit(offset <= remainingLen)` exits with the loop's
initial `error = kErrorNotFound`, not with a range error). -/
theorem C4_offset_beyond (m : Message) (t : Nat) (h : m.len < m.offset) :
    Find m t = .error .kErrorNotFound := by
  unfold Find
  rw [if_neg (by omega)]

/-- Witness for C4 on the buffer with read offset 5 and length 3. -/
theorem C4_offset_beyond_witness :
    mOff.len < mOff.offset ∧ Find mOff 2 = .error .kErrorNotFound :=
  ⟨by decide, C4_offset_beyond mOff 2 (by decide)⟩

/-- C5: first-match scan correctness — when the buffer, from its read
offset, carries a chain of well-formed records `pre ++ (aType, s) :: post`
in which no record of `pre` has the searched type (so the `(aType, s)`
record is the one with the smallest offset at or after the read offset
among those of type `aType`, regardless of duplicates in `post`), `Find`
returns exactly that record's offset and size. -/
theorem C5_first_match (m : Message) (aType s : Nat) (pre post : List (Nat × Nat))
    (hlen16 : m.len < 2 ^ 16) (hoff : m.offset ≤ m.len)
    (hchain : recordChain m m.offset (pre ++ (aType, s) :: post))
    (hpre : ∀ p ∈ pre, p.1 ≠ aType) :
    ∃ b, Find m aType = .ok (m.offset + sumSizes pre, s, b) := by
  refine ⟨m.data (m.offset + sumSizes pre + 1) == kExtendedLength, ?_⟩
  unfold Find
  rw [if_pos hoff, find_chain hlen16 pre m.offset hoff hchain hpre]
  rfl

/-- Witness for C5 on the buffer with records `(3, [9])`, `(5, [1])`,
`(5, [7, 7])`: searching type 5 returns the middle record at offset 3 and
size 3, not the later duplicate. -/
theorem C5_first_match_witness :
    ∃ b, Find mDup 5 = .ok (mDup.offset + sumSizes [(3, 3)], 3, b) :=
  C5_first_match mDup 5 3 [(3, 3)] [(5, 4)] (by decide) (by decide)
    (by simp only [recordChain, wellFormedRecord]; decide) (by decide)

/-- C6: minimum-length enforcement — for a record whose actual value length
is shorter than the caller's required width, `ReadTlvValue` and
`ReadUintTlv` return `kErrorParse` (carrying no value, so no truncated or
zero-padded integer is ever produced), and so does the `FindUintTlv`
composition when `Find` resolves the type to that record's offset. -/
theorem C6_min_length (m : Message) (o w len voff : Nat)
    (hrt : ReadTlv m o = .ok (len, voff)) (hlt : len < w) :
    ReadTlvValue m o w = .error .kErrorParse ∧
    ReadUintTlv m o w = .error .kErrorParse ∧
    (∀ t s b, Find m t = .ok (o, s, b) → FindUintTlv m t w = .error .kErrorParse) := by
  have hval : ReadTlvValue m o w = .error .kErrorParse := by
    unfold ReadTlvValue
    rw [hrt]
    show (if w ≤ len then Except.ok (m.readBytes voff w)
      else Except.error Error.kErrorParse) = Except.error Error.kErrorParse
    rw [if_neg (by omega)]
  refine ⟨hval, ?_, ?_⟩
  · unfold ReadUintTlv
    rw [hval]
  · intro t s b hfind
    unfold FindUintTlv FindTlvOffset
    rw [hfind]
    show ReadUintTlv m o w = .error .kErrorParse
    unfold ReadUintTlv
    rw [hval]

/-- Witness for C6 on the record `{type 5, value [1, 2]}` read with
required width 4. -/
theorem C6_min_length_witness :
    ReadTlvValue mShort 0 4 = .error .kErrorParse ∧
    FindUintTlv mShort 5 4 = .error .kErrorParse := by
  have h := C6_min_length mShort 0 4 2 2 (by decide) (by decide)
  exact ⟨h.1, h.2.2 5 4 false (by decide)⟩

/-- C7: encoder cap — for every value of length at most 254 the assertion
`OT_ASSERT(aLength <= kBaseTlvMaxLength)` holds (the `AppendTlv` result is
`some`, i.e. the assertion branch is unreachable), and with room in the
buffer the append succeeds, producing a 2-byte short header whose length
byte equals the value length (254 when appending exactly 254 bytes) and is
never the `0xFF` extended-form sentinel. -/
theorem C7_append_cap (m : Message) (t : Nat) (v : List Nat)
    (hv : v.length ≤ kBaseTlvMaxLength) :
    (AppendTlv m t v).isSome ∧
    (m.len + 2 + v.length ≤ m.cap →
      ∃ m2, AppendTlv m t v = some (Error.kErrorNone, m2) ∧
        m2.len = m.len + 2 + v.length ∧
        m2.data m.len = t ∧ m2.data (m.len + 1) = v.length ∧
        m2.data (m.len + 1) ≠ kExtendedLength) := by
  constructor
  · unfold AppendTlv
    rw [if_pos hv]
    rfl
  · intro hcap
    obtain ⟨m2, happ, hlen, -, -, -, h0, h1, -⟩ := appendTlv_ok m t v hv hcap
    refine ⟨m2, happ, hlen, h0, h1, ?_⟩
    rw [h1]
    show v.length ≠ 255
    have hv2 : v.length ≤ 254 := hv
    omega

set_option maxRecDepth 8192 in
/-- Witness for C7 at the boundary: appending exactly 254 bytes succeeds
with length byte 254 (and not the sentinel). -/
theorem C7_append_cap_witness :
    (AppendTlv (emptyMsg 300) 9 (List.replicate 254 7)).isSome ∧
    (∃ m2, AppendTlv (emptyMsg 300) 9 (List.replicate 254 7) =
        some (Error.kErrorNone, m2) ∧
      m2.len = (emptyMsg 300).len + 2 + (List.replicate 254 7).length ∧
      m2.data (emptyMsg 300).len = 9 ∧
      m2.data ((emptyMsg 300).len + 1) = (List.replicate 254 7).length ∧
      m2.data ((emptyMsg 300).len + 1) ≠ kExtendedLength) := by
  have h := C7_append_cap (emptyMsg 300) 9 (List.replicate 254 7) (by decide)
  exact ⟨h.1, h.2 (by decide)⟩

theorem appendBytes_ok_inv {m m1 : Message} {bs : List Nat}
    (h : m.appendBytes bs = .ok m1) :
    m1.len = m.len + bs.length ∧ (∀ i, i < m.len → m1.data i = m.data i) := by
  unfold Message.appendBytes at h
  split at h
  · have he := Except.ok.inj h
    subst he
    refine ⟨rfl, ?_⟩
    intro i hi
    show (if i < m.len then m.data i else bs.getD (i - m.len) 0) = m.data i
    rw [if_pos hi]
  · exact absurd h (by simp)

/-- C8 counterexample: `AppendTlv` on an empty buffer with capacity for only
the 2-byte header returns an error (`kErrorNoBufs` from the value append)
with the buffer already modified — its length grew from 0 to 2 (the header
was committed before the failing value append). -/
theorem C8_atomicity_counterexample :
    (AppendTlv mTiny 5 [9]).map (fun p => (p.1, p.2.len)) =
      some (Error.kErrorNoBufs, 2) ∧ mTiny.len = 0 :=
  ⟨by decide, by decide⟩

/-- C8 amended: whenever `Find` or a typed read returns an error, no caller
output has been written (the `Except`-valued reads carry no value on error
by construction, and `ReadStringTlv` returns the caller's output storage
untouched); the appends, however, are not atomic: when `AppendTlv` returns
an error the buffer is either unchanged (the header append itself failed)
or has grown by exactly the 2-byte committed header — with all previously
stored bytes preserved — when the value append failed after it. -/
theorem C8_atomicity_amended :
    (∀ m o maxLen buf, (ReadStringTlv m o maxLen buf).1 ≠ Error.kErrorNone →
      (ReadStringTlv m o maxLen buf).2 = buf) ∧
    (∀ (m : Message) t v e m2, AppendTlv m t v = some (e, m2) →
      e ≠ Error.kErrorNone →
      (m2 = m ∨ (m2.len = m.len + 2 ∧ ∀ i, i < m.len → m2.data i = m.data i))) := by
  constructor
  · intro m o maxLen buf herr
    cases hrt : ReadTlv m o with
    | error e =>
      unfold ReadStringTlv
      rw [hrt]
    | ok p =>
      obtain ⟨l, voff⟩ := p
      unfold ReadStringTlv at herr
      rw [hrt] at herr
      simp at herr
  · intro m t v e m2 happ herr
    unfold AppendTlv at happ
    by_cases hl : v.length ≤ kBaseTlvMaxLength
    · rw [if_pos hl] at happ
      cases hab : m.appendBytes [t, v.length] with
      | error e1 =>
        rw [hab] at happ
        have hp := Prod.mk.inj (Option.some.inj happ)
        left
        exact hp.2.symm
      | ok m1 =>
        rw [hab] at happ
        have happ2 : some (if 0 < v.length then
            (match m1.appendBytes v with
              | Except.error e => (e, m1)
              | Except.ok m2 => (Error.kErrorNone, m2))
          else (Error.kErrorNone, m1)) = some (e, m2) := happ
        by_cases hv : 0 < v.length
        · rw [if_pos hv] at happ2
          cases hab2 : m1.appendBytes v with
          | error e2 =>
            rw [hab2] at happ2
            have hp := Prod.mk.inj (Option.some.inj happ2)
            obtain ⟨hinv1, hinv2⟩ := appendBytes_ok_inv hab
            right
            rw [← hp.2]
            simp only [List.length_cons, List.length_nil] at hinv1
            exact ⟨by omega, hinv2⟩
          | ok m2b =>
            rw [hab2] at happ2
            have hp := Prod.mk.inj (Option.some.inj happ2)
            exact absurd hp.1.symm herr
        · rw [if_neg hv] at happ2
          have hp := Prod.mk.inj (Option.some.inj happ2)
          exact absurd hp.1.symm herr
    · rw [if_neg hl] at happ
      exact absurd happ (by simp)

/-- Witness for C8 (amended): a failing string read (on the truncated
buffer) leaves the caller's storage untouched, and the failing append on
`mTiny` leaves either the buffer unchanged or exactly the committed header
with the prior bytes preserved. -/
theorem C8_atomicity_amended_witness :
    (ReadStringTlv mTrunc 0 10 (fun _ => 7)).2 = (fun _ => 7) ∧
    (mTinyHdr = mTiny ∨ (mTinyHdr.len = mTiny.len + 2 ∧
      ∀ i, i < mTiny.len → mTinyHdr.data i = mTiny.data i)) :=
  ⟨C8_atomicity_amended.1 mTrunc 0 10 (fun _ => 7) (by decide),
   C8_atomicity_amended.2 mTiny 5 [9] Error.kErrorNoBufs mTinyHdr rfl (by decide)⟩

/-- C9: scan termination — for every buffer (with the read offset within
the length, as validated at entry), the `Find` loop reaches a terminal
result within `len / 2 + 1` iterations: running the fueled loop with that
much fuel yields `some` of exactly the result `Find` returns.  Each
non-terminal iteration advances the offset by the record size (at least 2),
which bounds the iteration count by the buffer length. -/
theorem C9_scan_termination (m : Message) (t : Nat) (hoff : m.offset ≤ m.len) :
    findLoopFuel m t (m.len / 2 + 1) m.offset (m.len - m.offset) =
      some (Find m t) := by
  have hr : m.len - m.offset < 2 * (m.len / 2 + 1) := by omega
  have hr2 : m.len - m.offset < 2 * (m.len - m.offset + 1) := by omega
  rw [findLoopFuel_congr m t (m.len / 2 + 1) (m.len - m.offset + 1)
    m.offset (m.len - m.offset) hr hr2]
  have hsome := findLoopFuel_isSome m t (m.len - m.offset + 1) m.offset
    (m.len - m.offset) hr2
  obtain ⟨res, hres⟩ := Option.isSome_iff_exists.mp hsome
  unfold Find
  rw [if_pos hoff, hres]
  rfl

/-- Witness for C9 on the two-record scenario buffer. -/
theorem C9_scan_termination_witness :
    mScen.offset ≤ mScen.len ∧
    findLoopFuel mScen 7 (mScen.len / 2 + 1) mScen.offset
      (mScen.len - mScen.offset) = some (Find mScen 7) :=
  ⟨by decide, C9_scan_termination mScen 7 (by decide)⟩

/-- C10: scan-loop arithmetic invariant — entered the way `Find` enters it
(`remainingLen = len - offset`, maintained by the equal decrements of both
quantities at each step) on a buffer whose length fits `uint16_t`, the loop
with the C fixed-width arithmetic computes exactly what the loop with
unbounded arithmetic computes: the wrapping `size_t` subtraction in the
extended-length check equals `remainingLen - 4` (the 4-byte header read
guarantees `remainingLen ≥ 4`), `remainingLen -= size` cannot underflow
(`size ≤ remainingLen` was just checked), and the narrowing of the
`uint32_t` size into the 16-bit output and the `uint16_t` offset update are
value-preserving. -/
theorem C10_loop_arithmetic (m : Message) (t : Nat) (hlen16 : m.len < 2 ^ 16) :
    ∀ fuel o, o ≤ m.len →
      findLoopFuel m t fuel o (m.len - o) = findLoopClean m t fuel o (m.len - o) := by
  intro fuel
  induction fuel with
  | zero => intro o _; rfl
  | succ fuel ih =>
    intro o ho
    simp only [findLoopFuel, findLoopClean]
    cases hro : m.readAt o 2 with
    | none => rfl
    | some hdr =>
      simp only
      have hhs : headerSize m o (m.len - o) (hdr.getD 1 0) =
          headerSizeClean m o (m.len - o) (hdr.getD 1 0) := by
        unfold headerSize headerSizeClean
        split
        · rfl
        · cases hr4 : m.readAt o 4 with
          | none => rfl
          | some ext =>
            simp only
            have h4 : o + 4 ≤ m.len := by
              by_contra hc
              unfold Message.readAt at hr4
              rw [if_neg (by omega)] at hr4
              exact Option.noConfusion hr4
            have hmod : (m.len - o + (2 ^ 64 - 4)) % 2 ^ 64 = m.len - o - 4 := by
              omega
            rw [hmod]
      rw [hhs]
      cases hhc : headerSizeClean m o (m.len - o) (hdr.getD 1 0) with
      | none => rfl
      | some size =>
        simp only
        by_cases hsz : size ≤ m.len - o
        · rw [if_pos hsz, if_pos hsz]
          by_cases ht : hdr.getD 0 0 = t
          · rw [if_pos ht, if_pos ht,
              Nat.mod_eq_of_lt (by omega : size < 2 ^ 16)]
          · rw [if_neg ht, if_neg ht,
              Nat.mod_eq_of_lt (by omega : o + size < 2 ^ 16),
              show m.len - o - size = m.len - (o + size) from by omega]
            exact ih (o + size) (by omega)
        · rw [if_neg hsz, if_neg hsz]

/-- Witness for C10 on the two-record scenario buffer. -/
theorem C10_loop_arithmetic_witness :
    mScen.offset ≤ mScen.len ∧
    findLoopFuel mScen 7 5 mScen.offset (mScen.len - mScen.offset) =
      findLoopClean mScen 7 5 mScen.offset (mScen.len - mScen.offset) :=
  ⟨by decide, C10_loop_arithmetic mScen 7 (by decide) 5 mScen.offset (by decide)⟩

end Tlv

end ot



